import Mathlib

set_option maxHeartbeats 1000000

/-!
Verification of the slate-react `Editable` component slice: the selection
synchronization engine, the event mediation layer and the clipboard fragment
codec, shallowly embedded from
`src/unnamed/part_000` (the `Editable` component) and
`src/packages/slate-react/src/components/editable/utils.ts`.
-/

namespace Slate

/-- Logical document nodes (the slate `Node` model): an ordered tree of
element nodes (carrying an is-void flag and children) and text leaves. -/
inductive SNode where
  | text (s : String)
  | element (isVoid : Bool) (children : List SNode)
deriving Repr

/-- A logical point (slate `Point`): a path of child indices addressing a
leaf, plus a character offset. -/
structure Point where
  path : List Nat
  offset : Nat
deriving Repr, DecidableEq

/-- A logical range (slate `Range`): an anchor/focus pair of points. -/
structure SRange where
  anchor : Point
  focus : Point
deriving Repr, DecidableEq

/-- Slate `Path.compare`: lexicographic comparison over the common length;
an ancestor path and a descendant path compare equal. -/
def pathCompare : List Nat → List Nat → Ordering
  | [], _ => .eq
  | _ :: _, [] => .eq
  | x :: xs, y :: ys =>
    if x < y then .lt else if y < x then .gt else pathCompare xs ys

/-- Slate `Point.compare`: compare the paths, then the offsets on a tie. -/
def pointCompare (p q : Point) : Ordering :=
  match pathCompare p.path q.path with
  | .eq =>
    if p.offset < q.offset then .lt
    else if q.offset < p.offset then .gt
    else .eq
  | o => o

/-- Slate `Range.isBackward`: the anchor sits after the focus. -/
def isBackward (r : SRange) : Bool := pointCompare r.anchor r.focus == .gt

/-- Slate `Range.edges`: the range's start and end points, sorted by
document order (anchor/focus swapped when the range is backward). -/
def edgesOf (r : SRange) : Point × Point :=
  if isBackward r then (r.focus, r.anchor) else (r.anchor, r.focus)

/-- Slate `Range.isCollapsed`: anchor and focus are the same point. -/
def isCollapsed (r : SRange) : Bool := r.anchor == r.focus

/-- Slate `Range.isExpanded`: negation of `isCollapsed`. -/
def isExpanded (r : SRange) : Bool := !isCollapsed r

mutual

/-- Slate `Node.get`, relative to a node: resolve a path of child indices. -/
def nodeAtN : SNode → List Nat → Option SNode
  | n, [] => some n
  | .text _, _ :: _ => none
  | .element _ cs, i :: rest => nodeAtL cs i rest

/-- Helper for `nodeAtN`: look up child `i` and keep descending. -/
def nodeAtL : List SNode → Nat → List Nat → Option SNode
  | [], _, _ => none
  | c :: _, 0, rest => nodeAtN c rest
  | _ :: cs, i + 1, rest => nodeAtL cs i rest

end

/-- Resolve a non-root path against the editor's top-level children. -/
def nodeAt (children : List SNode) : List Nat → Option SNode
  | [] => none
  | i :: rest => nodeAtL children i rest

/-- Slate `Node.first` composed with `Editor.point (edge: start)`: descend
into the first child until a text leaf is reached; `none` models the
exception slate throws when the descent dead-ends in a childless element. -/
def startOfNode : SNode → List Nat → Option Point
  | .text _, p => some ⟨p, 0⟩
  | .element _ [], _ => none
  | .element _ (c :: _), p => startOfNode c (p ++ [0])

mutual

/-- Slate `Node.last` composed with `Editor.point (edge: end)`: descend into
the last child until a text leaf is reached, whose offset is its length. -/
def endOfNode : SNode → List Nat → Option Point
  | .text s, p => some ⟨p, s.length⟩
  | .element _ cs, p => endOfList cs p 0

/-- Helper for `endOfNode`: walk to the last child, tracking its index. -/
def endOfList : List SNode → List Nat → Nat → Option Point
  | [], _, _ => none
  | [c], p, i => endOfNode c (p ++ [i])
  | _ :: c :: cs, p, i => endOfList (c :: cs) p (i + 1)

end

/-- Slate `Editor.start(editor, at)` for a path `at`: the first text point
at or below the path (the root path addresses the editor itself). -/
def editorStart (children : List SNode) : List Nat → Option Point
  | [] =>
    match children with
    | c :: _ => startOfNode c [0]
    | [] => none
  | i :: rest => (nodeAt children (i :: rest)).bind fun n => startOfNode n (i :: rest)

/-- Slate `Editor.end(editor, at)` for a path `at`: the last text point at
or below the path. -/
def editorEnd (children : List SNode) : List Nat → Option Point
  | [] => endOfList children [] 0
  | i :: rest => (nodeAt children (i :: rest)).bind fun n => endOfNode n (i :: rest)

/-- Slate `Editor.range(editor, path)`: anchor at the path's start point,
focus at its end point. -/
def rangeOfPath (children : List SNode) (p : List Nat) : Option SRange :=
  match editorStart children p, editorEnd children p with
  | some s, some e => some ⟨s, e⟩
  | _, _ => none

/-- Whether the node at a path is a void element. -/
def isVoidAt (children : List SNode) (q : List Nat) : Bool :=
  match nodeAt children q with
  | some (.element true _) => true
  | _ => false

/-- Slate `Editor.void(editor, at)`, i.e. `Editor.above` with an is-void
match: `Editor.levels` walks from the root down to the path, stops at the
first void level it meets, and `above` skips the node at the path itself;
the result is therefore the first (highest) void element among the proper,
non-root ancestor paths. -/
def voidAbove (children : List SNode) (p : List Nat) : Option (List Nat) :=
  ((List.range (p.length - 1)).map fun k => p.take (k + 1)).find? fun q =>
    isVoidAt children q

mutual

/-- Slate `Node.texts` cardinality: the number of text leaves below a node. -/
def textsN : SNode → Nat
  | .text _ => 1
  | .element _ cs => textsL cs

/-- Text-leaf count of a list of siblings. -/
def textsL : List SNode → Nat
  | [] => 0
  | c :: cs => textsN c + textsL cs

end

mutual

/-- Slate `Node.string`: concatenation of all text leaves below a node. -/
def stringN : SNode → String
  | .text s => s
  | .element _ cs => stringL cs

/-- Concatenated text of a list of siblings. -/
def stringL : List SNode → String
  | [] => ""
  | c :: cs => stringN c ++ stringL cs

end

/-- Whether a child list is exactly one empty text leaf (the shape slate
normalization forces on a void element's children). -/
def singletonEmptyText : List SNode → Bool
  | [.text s] => s == ""
  | _ => false

mutual

/-- Slate's void normalization invariant: every void element's children are
exactly one empty text leaf. -/
def voidOk : SNode → Bool
  | .text _ => true
  | .element v cs => (if v then singletonEmptyText cs else true) && voidOkL cs

/-- `voidOk` over a list of siblings. -/
def voidOkL : List SNode → Bool
  | [] => true
  | c :: cs => voidOk c && voidOkL cs

end

mutual

/-- Slate's structural normalization invariant: every element has at least
one child (so every node reaches a text leaf). -/
def wfNode : SNode → Bool
  | .text _ => true
  | .element _ cs => !cs.isEmpty && wfList cs

/-- `wfNode` over a list of siblings. -/
def wfList : List SNode → Bool
  | [] => true
  | c :: cs => wfNode c && wfList cs

end

/-- Editor state visible to this slice: the document's top-level children
and the logical selection. -/
structure SEditor where
  children : List SNode
  selection : Option SRange
deriving Repr

/-! ## Rendered (DOM) model

The clipboard codec walks the browser's rendered tree: cloned fragments,
text nodes, elements with attributes and a computed `display` style. -/

/-- A rendered node: a DOM text node, or a DOM element with a tag name, a
computed `display` style, attributes and children. -/
inductive DNode where
  | dtext (value : String)
  | delem (tag : String) (display : String)
      (attrs : List (String × String)) (children : List DNode)
deriving Repr

/-- `isDOMText` from `utils/dom`: the node is a DOM text node. -/
def isDOMTextN : DNode → Bool
  | .dtext _ => true
  | .delem _ _ _ _ => false

mutual

/-- DOM `textContent`: the concatenation of all descendant text. -/
def textContent : DNode → String
  | .dtext v => v
  | .delem _ _ _ cs => textContentL cs

/-- `textContent` of a list of siblings. -/
def textContentL : List DNode → String
  | [] => ""
  | c :: cs => textContent c ++ textContentL cs

end

/-- Whether a DOM element's attribute list carries a given attribute key. -/
def hasAttr (attrs : List (String × String)) (k : String) : Bool :=
  attrs.any fun kv => kv.1 == k

mutual

/-- `getPlainText` (`utils.ts` lines 189-209): a text node contributes its
`nodeValue`; an element accumulates its children's contributions in order
and appends a newline when its computed display is `block` or `list` or it
is a `BR` element. -/
def getPlainText : DNode → String
  | .dtext v => v
  | .delem tag display _ cs =>
    getPlainTextL cs ++
      (if display == "block" || display == "list" || tag == "BR" then "\n" else "")

/-- The accumulation loop of `getPlainText` over `childNodes`. -/
def getPlainTextL : List DNode → String
  | [] => ""
  | c :: cs => getPlainText c ++ getPlainTextL cs

end

mutual

/-- Value equality of rendered nodes (standing in for the reference
identity the imperative code relies on). -/
def dnodeBeq : DNode → DNode → Bool
  | .dtext a, .dtext b => a == b
  | .delem t1 d1 a1 c1, .delem t2 d2 a2 c2 =>
    t1 == t2 && d1 == d2 && a1 == a2 && dnodeBeqL c1 c2
  | _, _ => false

/-- `dnodeBeq` over lists of siblings. -/
def dnodeBeqL : List DNode → List DNode → Bool
  | [], [] => true
  | x :: xs, y :: ys => dnodeBeq x y && dnodeBeqL xs ys
  | _, _ => false

end

/-- The `textContent.trim() !== ''` test of `setFragmentData`: the string
trims to non-empty exactly when it contains a non-whitespace character. -/
def trimNonEmpty (s : String) : Bool :=
  s.data.any fun ch => !(ch == ' ' || ch == '\t' || ch == '\n' || ch == '\r')

/-- The attach-candidate loop of `setFragmentData` (`utils.ts` lines
121-128): start from `contents.childNodes[0]` and let every child whose
trimmed `textContent` is non-empty overwrite the candidate, so the last
non-empty child wins. -/
def chooseAttach (ns : List DNode) : Option DNode :=
  ns.foldl (fun acc n => if trimNonEmpty (textContent n) then some n else acc)
    ns.head?

mutual

/-- DOM `querySelector` for a `data-slate-spacer` attribute: the first
element in document (preorder) order carrying the attribute. -/
def findSpacerN : DNode → Option DNode
  | .dtext _ => none
  | .delem t d a cs =>
    if hasAttr a "data-slate-spacer" then some (.delem t d a cs)
    else findSpacerL cs

/-- `findSpacerN` over a list of siblings, first hit wins. -/
def findSpacerL : List DNode → Option DNode
  | [] => none
  | c :: cs =>
    match findSpacerN c with
    | some x => some x
    | none => findSpacerL cs

end

mutual

/-- The zero-width cleanup of `setFragmentData` (`utils.ts` lines 149-156):
every element carrying `data-slate-zero-width` has its `textContent` set to
a newline when the attribute value is `n`, and to the empty string
otherwise (which clears its children). -/
def stripZeroWidth : DNode → DNode
  | .dtext v => .dtext v
  | .delem t d a cs =>
    if hasAttr a "data-slate-zero-width" then
      let isNewline := a.any fun kv => kv.1 == "data-slate-zero-width" && kv.2 == "n"
      .delem t d a (if isNewline then [.dtext "\n"] else [])
    else .delem t d a (stripZeroWidthL cs)

/-- `stripZeroWidth` over a list of siblings. -/
def stripZeroWidthL : List DNode → List DNode
  | [] => []
  | c :: cs => stripZeroWidth c :: stripZeroWidthL cs

end

mutual

/-- DOM `innerHTML`-style serialization of a rendered node. -/
def serializeN : DNode → String
  | .dtext v => v
  | .delem t _ a cs =>
    "<" ++ t ++ (a.foldl (fun acc kv => acc ++ " " ++ kv.1 ++ "=" ++ kv.2) "") ++
      ">" ++ serializeL cs ++ "</" ++ t ++ ">"

/-- Serialization of a list of sibling rendered nodes. -/
def serializeL : List DNode → String
  | [] => ""
  | c :: cs => serializeN c ++ serializeL cs

end

mutual

/-- `JSON.stringify` over a logical fragment, modelled as a self-describing
textual serialization (its exact shape is irrelevant to the claims). -/
def jsonN : SNode → String
  | .text s => "(text " ++ s ++ ")"
  | .element v cs =>
    "(element " ++ (if v then "void " else "") ++ jsonFragment cs ++ ")"

/-- `jsonN` over a list of sibling logical nodes. -/
def jsonFragment : List SNode → String
  | [] => ""
  | c :: cs => jsonN c ++ jsonFragment cs

end

/-- `setAttribute` of the encoded fragment (`data-slate-fragment`) on every
rendered node value-equal to the attach node (standing in for the single
in-place mutation through the attach reference). -/
def addFragAttr (enc : String) : DNode → DNode
  | .dtext v => .dtext v
  | .delem t d a cs => .delem t d (a ++ [("data-slate-fragment", enc)]) cs

mutual

/-- Apply `addFragAttr` to the subtrees value-equal to the attach node. -/
def applyFragAttrN (att : DNode) (enc : String) : DNode → DNode
  | .dtext v => .dtext v
  | .delem t d a cs =>
    if dnodeBeq (.delem t d a cs) att then addFragAttr enc (.delem t d a cs)
    else .delem t d a (applyFragAttrL att enc cs)

/-- `applyFragAttrN` over a list of siblings. -/
def applyFragAttrL (att : DNode) (enc : String) : List DNode → List DNode
  | [] => []
  | c :: cs => applyFragAttrN att enc c :: applyFragAttrL att enc cs

end

/-- Remove the first sibling value-equal to the attach node (the
`span.appendChild(attach)` move of a bare text attach out of the clone). -/
def eraseFirstEq (att : DNode) : List DNode → List DNode
  | [] => []
  | n :: ns => if dnodeBeq n att then ns else n :: eraseFirstEq att ns

/-! ## Clipboard Fragment Codec (`setFragmentData`, `utils.ts` lines 99-182)

The browser-supplied inputs of the codec — the cloned DOM contents of the
selection's native projection (`toDOMRange` + `cloneContents`), the clone
re-taken after `setEndAfter` on a void end node, the logical fragment
extracted by the external `Node.fragment`, and the platform's
`btoa(encodeURIComponent(...))` encoding — enter as an environment. -/

/-- External inputs of one `setFragmentData` run. -/
structure CodecEnv where
  cloneContents : List DNode
  extendedContents : List DNode
  fragment : List SNode
  encode : String → String

/-- The attach-node choice of `setFragmentData` (`utils.ts` lines 119-147):
the last non-empty child of the original clone (defaulting to its first
child), overridden — when the start edge is void — by the first
`data-slate-spacer` element of the current contents (which were re-cloned
when the end edge is void). -/
def attachOf (children : List SNode) (sel : SRange) (env : CodecEnv) : Option DNode :=
  let es := edgesOf sel
  let startVoid := voidAbove children es.1.path
  let endVoid := voidAbove children es.2.path
  let contents1 := if endVoid.isSome then env.extendedContents else env.cloneContents
  if startVoid.isSome then findSpacerL contents1 else chooseAttach env.cloneContents

/-- Outcome of one `setFragmentData` run: the early return without touching
the transfer object, a thrown exception (the non-null assertion on a
missing attach node fails before any `setData` call), or the three transfer
entries written, in call order. -/
inductive SFDResult where
  | noop
  | crashed
  | wrote (entries : List (String × String))
deriving Repr, DecidableEq

/-- `setFragmentData` (`utils.ts` lines 99-182). The in-place DOM mutations
on the detached clone (zero-width cleanup, attribute attachment, the span
wrap of a bare text attach) are modelled as pure rewrites of the clone; the
transfer entries are returned in the order of the `setData` calls. -/
def setFragmentData (ed : SEditor) (env : CodecEnv) : SFDResult :=
  match ed.selection with
  | none => .noop
  | some sel =>
    let es := edgesOf sel
    let startVoid := voidAbove ed.children es.1.path
    let endVoid := voidAbove ed.children es.2.path
    if isCollapsed sel && startVoid.isNone then .noop
    else
      let contents1 := if endVoid.isSome then env.extendedContents else env.cloneContents
      match attachOf ed.children sel env with
      | none => .crashed
      | some att =>
        let stripped := stripZeroWidthL contents1
        let att1 := stripZeroWidth att
        let enc := env.encode (jsonFragment env.fragment)
        let finalNodes :=
          if isDOMTextN att1 then
            eraseFirstEq att1 stripped ++
              [DNode.delem "SPAN" "inline"
                [("style", "white-space: pre"), ("data-slate-fragment", enc)] [att1]]
          else applyFragAttrL att1 enc stripped
        let div := DNode.delem "DIV" "block" [] finalNodes
        .wrote
          [("application/x-slate-fragment", enc),
           ("text/html", serializeL finalNodes),
           ("text/plain", getPlainText div)]

/-- The transfer object: `DataTransfer.setData` replaces the entry of an
existing format and appends a new one otherwise. -/
def setData (dt : List (String × String)) (k v : String) : List (String × String) :=
  if dt.any (fun p => p.1 == k) then
    dt.map fun p => if p.1 == k then (k, v) else p
  else dt ++ [(k, v)]

/-- Apply a list of `setData` calls in order. -/
def setDataAll (dt : List (String × String)) : List (String × String) → List (String × String)
  | [] => dt
  | (k, v) :: rest => setDataAll (setData dt k v) rest

/-- The full mutable state a `setFragmentData` call can see: the editor,
its rendered-clone environment and the transfer object. -/
structure CodecState where
  editor : SEditor
  env : CodecEnv
  transfer : List (String × String)

/-- `setFragmentData` as a state transformer over everything in scope: only
the transfer object is ever written. -/
def setFragmentDataS (st : CodecState) : CodecState :=
  match setFragmentData st.editor st.env with
  | .noop => st
  | .crashed => st
  | .wrote entries => { st with transfer := setDataAll st.transfer entries }

/-! ## Selection Synchronization Engine

Outbound (render-triggered, `part_000` lines 192-238): push the logical
selection into the native selection unless it is already correct.
Inbound (`onDOMSelectionChange`, lines 303-334): project a native range
back to a logical one, gated by the transient flags. -/

/-- A native (DOM) range: endpoint containers are identified by node ids,
since the code compares them by reference. -/
structure DRange where
  startContainer : Nat
  startOffset : Nat
  endContainer : Nat
  endOffset : Nat
deriving Repr, DecidableEq

/-- `isRangeEqual` (`utils.ts` lines 23-34): two native ranges are equal
when their endpoints match directly or swapped (undirected comparison). -/
def isRangeEqual (a b : DRange) : Bool :=
  (a.startContainer == b.startContainer && a.startOffset == b.startOffset &&
    a.endContainer == b.endContainer && a.endOffset == b.endOffset) ||
  (a.startContainer == b.endContainer && a.startOffset == b.endOffset &&
    a.endContainer == b.startContainer && a.endOffset == b.startOffset)

/-- State read and written by one outbound sync pass. `domSel = none`
models `window.getSelection()` returning null; `some none` a selection
object whose type is `None` (no current range); `some (some r)` a current
range `r`. `writes` counts native-selection writes. -/
structure SyncState where
  selection : Option SRange
  domSel : Option (Option DRange)
  isComposing : Bool
  focused : Bool
  isUpdatingSelection : Bool
  writes : Nat
deriving Repr, DecidableEq

/-- One outbound sync pass (`part_000` lines 192-238), with `proj` the
external `ReactEditor.toDOMRange` projection: no-op when composing, not
focused or no selection object; no-op when both sides are empty; no-op
when the current native range is undirected-equal to the projection;
otherwise remove all ranges and install the projected range (one write),
the `updatingSelection` latch being set and then cleared again by the
deferred callback before the next pass. -/
def syncPass (proj : SRange → DRange) (s : SyncState) : SyncState :=
  match s.domSel with
  | none => s
  | some cur =>
    if s.isComposing || !s.focused then s
    else
      let hasDomSelection := cur.isSome
      if s.selection.isNone && !hasDomSelection then s
      else
        let newDomRange := s.selection.map proj
        match cur, newDomRange with
        | some r, some nr =>
          if isRangeEqual r nr then s
          else { s with domSel := some (some nr), writes := s.writes + 1 }
        | _, _ =>
          { s with domSel := some newDomRange, writes := s.writes + 1 }

/-- Model-facing requests and platform effects a handler can issue. -/
inductive Effect where
  | select (r : SRange)
  | deselect
  | deleteFragment
  | setDataE (k v : String)
  | preventDefault
  | focusRoot
deriving Repr, DecidableEq

/-- The `setData` calls of a codec run, as effects. -/
def writesOf : SFDResult → List Effect
  | .wrote entries => entries.map fun p => .setDataE p.1 p.2
  | _ => []

/-- The transient per-editor flags of `part_000` (the `state` memo plus the
`IS_FOCUSED` registry entry). -/
structure Flags where
  isComposing : Bool
  isUpdatingSelection : Bool
  latestElement : Option Nat
  focused : Bool
deriving Repr, DecidableEq

/-- The debounced body of `onDOMSelectionChange` (`part_000` lines
303-334): gated on not read-only, not composing and no own write in
flight; updates the focused flag and the latest focused element from the
active element; projects an editable native range to a logical one and
requests a model select, else a deselect. `editableOk` models
`hasEditableTarget` on both endpoint containers and `toSlate` the external
`ReactEditor.toSlateRange`. -/
def onDOMSelectionChange (readOnly : Bool) (activeElement : Option Nat)
    (editorEl : Nat) (domRange : Option DRange) (editableOk : DRange → Bool)
    (toSlate : DRange → SRange) (fl : Flags) : Flags × List Effect :=
  if !readOnly && !fl.isComposing && !fl.isUpdatingSelection then
    let fl1 :=
      if activeElement = some editorEl then
        { fl with latestElement := activeElement, focused := true }
      else { fl with focused := false }
    match domRange with
    | some r =>
      if editableOk r then (fl1, [.select (toSlate r)]) else (fl1, [.deselect])
    | none => (fl1, [.deselect])
  else (fl, [])

/-! ## Event Mediation Layer (`part_000` lines 382-585)

Each handler's externally computed predicates — `hasTarget`,
`hasEditableTarget`, `isDOMNode` on the event target, and `isEventHandled`
with the caller-supplied override — enter as a context record; DOM-to-node
resolution (`toSlateNode` + `findPath`) enters as the resolved path. -/

/-- Per-event context: the read-only registry entry and the short-circuit
predicates of the handler guards. -/
structure Ctx where
  readOnly : Bool
  handled : Bool
  hasTargetB : Bool
  hasEditableTargetB : Bool
  isDomNodeB : Bool
deriving Repr, DecidableEq

/-- `onClick` (`part_000` lines 472-491): when not read-only, the target is
in the editor, the event is unhandled and the target is a DOM node, resolve
the clicked node's path, take its start point, and — when that point sits
inside a void element — select the collapsed range at that point; the
selection is untouched otherwise. -/
def onClick (c : Ctx) (children : List SNode) (sel : Option SRange)
    (resolvedPath : List Nat) : Option SRange :=
  if !c.readOnly && c.hasTargetB && !c.handled && c.isDomNodeB then
    match editorStart children resolvedPath with
    | some start =>
      if (voidAbove children start.path).isSome then some ⟨start, start⟩ else sel
    | none => sel
  else sel

/-- `onCopy` (`part_000` lines 492-503): when the target is editable and
the event unhandled, suppress the default copy and run the codec's write
path; the guard does not consult the read-only flag. -/
def onCopy (c : Ctx) (ed : SEditor) (env : CodecEnv) : List Effect :=
  if c.hasEditableTargetB && !c.handled then
    .preventDefault :: writesOf (setFragmentData ed env)
  else []

/-- `onCut` (`part_000` lines 504-521): when not read-only, the target
editable and the event unhandled, suppress the default, run the codec's
write path, and afterwards delete the selected fragment exactly when the
selection is expanded. An exception escaping the codec (`SFDResult.crashed`)
aborts the handler before the delete. -/
def onCut (c : Ctx) (ed : SEditor) (env : CodecEnv) : List Effect :=
  if !c.readOnly && c.hasEditableTargetB && !c.handled then
    match setFragmentData ed env with
    | .crashed => [.preventDefault]
    | r =>
      .preventDefault :: writesOf r ++
        (match ed.selection with
         | some sel => if isExpanded sel then [.deleteFragment] else []
         | none => [])
  else []

/-- `onDragOver` (`part_000` lines 522-539): when the target is in the
editor and the event unhandled, suppress the default exactly when the
resolved node is itself a void element. -/
def onDragOver (c : Ctx) (children : List SNode) (resolvedPath : List Nat) :
    List Effect :=
  if c.hasTargetB && !c.handled then
    if isVoidAt children resolvedPath then [.preventDefault] else []
  else []

/-- `onDragStart` (`part_000` lines 540-561): when the target is in the
editor and the event unhandled, resolve the dragged node's path; when a
void element sits above it, select that path's full range first (so the
fragment capture includes it), then run the codec's write path on the
updated editor. The guard does not consult the read-only flag. Returns the
issued effects and the editor as left by the handler. -/
def onDragStart (c : Ctx) (ed : SEditor) (env : CodecEnv)
    (resolvedPath : List Nat) : List Effect × SEditor :=
  if c.hasTargetB && !c.handled then
    match voidAbove ed.children resolvedPath with
    | some _ =>
      match rangeOfPath ed.children resolvedPath with
      | some r =>
        let ed1 := { ed with selection := some r }
        (.select r :: writesOf (setFragmentData ed1 env), ed1)
      | none => ([], ed)
    | none => (writesOf (setFragmentData ed env), ed)
  else ([], ed)

/-- `onFocus` (`part_000` lines 562-585): when not read-only, no own
selection write is in flight, the target is editable and the event is
unhandled, record the active element; on Firefox, when focus landed off
the editor root, force it back instead of accepting it; otherwise mark the
editor focused. -/
def onFocus (c : Ctx) (fl : Flags) (isFirefox : Bool)
    (activeElement : Option Nat) (targetIsRoot : Bool) : Flags × List Effect :=
  if !c.readOnly && !fl.isUpdatingSelection && c.hasEditableTargetB && !c.handled then
    let fl1 := { fl with latestElement := activeElement }
    if isFirefox && !targetIsRoot then (fl1, [.focusRoot])
    else ({ fl1 with focused := true }, [])
  else (fl, [])

/-- `onBlur` (`part_000` lines 415-471): ignored when read-only, mid
selection-update, the target is not editable or the event is handled; also
ignored when the active element is unchanged from the last recorded one,
when the related target is the editor root, carries the spacer marker, or
resolves inside the editor to a non-void element; otherwise the focused
flag is cleared. The related-target tests enter as booleans computed by
the external DOM predicates. -/
def onBlur (c : Ctx) (fl : Flags) (activeElement : Option Nat)
    (rtIsRoot rtHasSpacerAttr rtInEditor rtResolvedNonVoidElement : Bool) : Flags :=
  if c.readOnly || fl.isUpdatingSelection || !c.hasEditableTargetB || c.handled then fl
  else if fl.latestElement = activeElement then fl
  else if rtIsRoot then fl
  else if rtHasSpacerAttr then fl
  else if rtInEditor && rtResolvedNonVoidElement then fl
  else { fl with focused := false }

/-! ## Decorations (`part_000` lines 336-351) -/

/-- A decoration: an anchor/focus pair plus the placeholder marker
(`PLACEHOLDER_SYMBOL`) and its configured text. -/
structure Decoration where
  anchor : Point
  focus : Point
  isPlaceholder : Bool
  placeholderText : Option String
deriving Repr, DecidableEq

/-- The decoration computation of the render body (`part_000` lines
336-351): the caller's `decorate` output, plus one placeholder decoration
collapsed at `Editor.start(editor, [])` when a placeholder string is
configured (JS truthiness: non-empty), the editor has one top-level child,
exactly one text leaf, and an empty string content. -/
def decorationsOf (placeholderProp : Option String) (children : List SNode)
    (base : List Decoration) : List Decoration :=
  match placeholderProp with
  | none => base
  | some ph =>
    if ph != "" && children.length == 1 && textsL children == 1 &&
        stringL children == "" then
      let start := (editorStart children []).getD ⟨[], 0⟩
      base ++ [⟨start, start, true, some ph⟩]
    else base


/-! ## Verified properties -/


lemma getPlainTextL_eq_foldr (cs : List DNode) :
    getPlainTextL cs = (cs.map getPlainText).foldr (· ++ ·) "" := by
  induction cs with
  | nil => rfl
  | cons c cs ih => simp [getPlainTextL, ih]

/-- C7: plain-text extraction: a text node contributes its literal text; an
element contributes the concatenation of its children's contributions in
child order, followed by exactly one newline if and only if its computed
display is block or list, or it is a line-break element. -/
theorem plainTextExtractionSpec (v : String) (t d : String)
    (a : List (String × String)) (cs : List DNode) :
    getPlainText (.dtext v) = v ∧
    getPlainText (.delem t d a cs) =
      ((cs.map getPlainText).foldr (· ++ ·) "") ++
        (if d = "block" ∨ d = "list" ∨ t = "BR" then "\n" else "") := by
  refine ⟨rfl, ?_⟩
  rw [getPlainText, getPlainTextL_eq_foldr]
  congr 1
  by_cases h1 : d = "block" <;> by_cases h2 : d = "list" <;> by_cases h3 : t = "BR" <;>
    simp [h1, h2, h3]

/-- C10: the codec's write path never modifies the logical document or the
logical selection: after `setFragmentData` runs, the document tree and the
selection are what they were before. -/
theorem setFragmentDataFrame (st : CodecState) :
    (setFragmentDataS st).editor.children = st.editor.children ∧
    (setFragmentDataS st).editor.selection = st.editor.selection := by
  unfold setFragmentDataS
  cases setFragmentData st.editor st.env <;> exact ⟨rfl, rfl⟩

/-- C9: whenever the editor is read-only, or the composing flag is set, or
the updatingSelection flag is set, one invocation of the inbound
selection-change handler issues no model select or deselect request and
leaves the focused flag and the latest-focused-element record unchanged. -/
theorem inboundSyncGatedNoop (readOnly : Bool) (activeElement : Option Nat)
    (editorEl : Nat) (domRange : Option DRange) (editableOk : DRange → Bool)
    (toSlate : DRange → SRange) (fl : Flags)
    (h : readOnly = true ∨ fl.isComposing = true ∨ fl.isUpdatingSelection = true) :
    (onDOMSelectionChange readOnly activeElement editorEl domRange editableOk
        toSlate fl).2 = [] ∧
    (onDOMSelectionChange readOnly activeElement editorEl domRange editableOk
        toSlate fl).1.focused = fl.focused ∧
    (onDOMSelectionChange readOnly activeElement editorEl domRange editableOk
        toSlate fl).1.latestElement = fl.latestElement := by
  unfold onDOMSelectionChange
  rcases h with h | h | h <;> simp [h]

theorem inboundSyncGatedNoopWitness :
    (onDOMSelectionChange true none 0 none (fun _ => true)
        (fun _ => ⟨⟨[], 0⟩, ⟨[], 0⟩⟩) ⟨false, false, none, false⟩).2 = [] :=
  (inboundSyncGatedNoop true none 0 none (fun _ => true)
    (fun _ => ⟨⟨[], 0⟩, ⟨[], 0⟩⟩) ⟨false, false, none, false⟩ (Or.inl rfl)).1

lemma isRangeEqual_refl (a : DRange) : isRangeEqual a a = true := by
  simp [isRangeEqual]


lemma isRangeEqual_refl' (a : DRange) : isRangeEqual a a = true := by
  simp [isRangeEqual]

lemma syncPass_cases (proj : SRange → DRange) (s : SyncState) :
    syncPass proj s = s ∨
      syncPass proj s =
        { s with domSel := some (s.selection.map proj), writes := s.writes + 1 } := by
  rcases s with ⟨sel, domSel, comp, foc, upd, w⟩
  rcases domSel with _ | cur
  · left; rfl
  · by_cases hcf : (comp || !foc) = true
    · left; simp [syncPass, hcf]
    · rcases sel with _ | sl <;> rcases cur with _ | r
      · left; simp [syncPass, hcf]
      · right; simp [syncPass, hcf]
      · right; simp [syncPass, hcf]
      · by_cases heq : isRangeEqual r (proj sl) = true
        · left; simp [syncPass, hcf, heq]
        · right; simp [syncPass, hcf, heq]

lemma syncPass_noop_of_agree (proj : SRange → DRange) (s : SyncState)
    (h : s.domSel = some (s.selection.map proj)) :
    syncPass proj s = s := by
  rcases s with ⟨sel, domSel, comp, foc, upd, w⟩
  simp only at h
  subst h
  by_cases hcf : (comp || !foc) = true
  · simp [syncPass, hcf]
  · rcases sel with _ | sl
    · simp [syncPass, hcf]
    · simp [syncPass, hcf, isRangeEqual_refl']

/-- C1: idempotence of the outbound selection sync: if the native selection
already holds a range undirected-equal to the projection of the current
logical selection, one outbound pass performs no native-selection write;
and two passes in a row with no intervening model change perform at most
one write. -/
theorem outboundSyncNoRedundantWrite (proj : SRange → DRange) (s : SyncState) :
    (∀ r sel, s.domSel = some (some r) → s.selection = some sel →
      isRangeEqual r (proj sel) = true → syncPass proj s = s) ∧
    (syncPass proj (syncPass proj s)).writes ≤ s.writes + 1 := by
  constructor
  · intro r sel hd hs heq
    rcases s with ⟨sel', domSel, comp, foc, upd, w⟩
    simp only at hd hs
    subst hd; subst hs
    by_cases hcf : (comp || !foc) = true
    · simp [syncPass, hcf]
    · simp [syncPass, hcf, heq]
  · rcases syncPass_cases proj s with h | h
    · rw [h, h]; omega
    · have h2 : syncPass proj (syncPass proj s) = syncPass proj s := by
        apply syncPass_noop_of_agree
        rw [h]
      rw [h2, h]

theorem outboundSyncNoRedundantWriteWitness :
    syncPass (fun _ => ⟨1, 2, 3, 4⟩)
        ⟨some ⟨⟨[0], 0⟩, ⟨[0], 1⟩⟩, some (some ⟨3, 4, 1, 2⟩), false, true, false, 0⟩ =
      ⟨some ⟨⟨[0], 0⟩, ⟨[0], 1⟩⟩, some (some ⟨3, 4, 1, 2⟩), false, true, false, 0⟩ :=
  (outboundSyncNoRedundantWrite (fun _ => ⟨1, 2, 3, 4⟩)
      ⟨some ⟨⟨[0], 0⟩, ⟨[0], 1⟩⟩, some (some ⟨3, 4, 1, 2⟩), false, true, false, 0⟩).1
    ⟨3, 4, 1, 2⟩ ⟨⟨[0], 0⟩, ⟨[0], 1⟩⟩ rfl rfl (by decide)



/-- C3: the codec's write path is a no-op exactly when the selection is
absent or collapsed with a non-void start; any other selection (expanded,
or collapsed at a void start) gets all three transfer entries — encoded
fragment, markup and plain text — written, provided the attach node the
code asserts to exist is present in the rendered clone. -/
theorem setFragmentDataNoopIff (ed : SEditor) (env : CodecEnv) :
    (setFragmentData ed env = .noop ↔
      ed.selection = none ∨
        ∃ sel, ed.selection = some sel ∧ isCollapsed sel = true ∧
          voidAbove ed.children (edgesOf sel).1.path = none) ∧
    (∀ sel, ed.selection = some sel →
      ¬(isCollapsed sel = true ∧ voidAbove ed.children (edgesOf sel).1.path = none) →
      attachOf ed.children sel env ≠ none →
      ∃ enc html plain, setFragmentData ed env =
        .wrote [("application/x-slate-fragment", enc), ("text/html", html),
                ("text/plain", plain)]) := by
  rcases ed with ⟨ch, sel⟩
  rcases sel with _ | sl
  · constructor
    · simp [setFragmentData]
    · intro sel h; simp at h
  · constructor
    · by_cases hc : (isCollapsed sl && (voidAbove ch (edgesOf sl).1.path).isNone) = true
      · simp only [setFragmentData, hc, if_true]
        simp only [Bool.and_eq_true, Option.isNone_iff_eq_none] at hc
        simp [hc]
      · rcases hatt : attachOf ch sl env with _ | att
        · simp only [setFragmentData, hc, if_false, hatt]
          constructor
          · intro h; exact absurd h (by simp)
          · rintro (h | ⟨sel', hs, hcol, hvo⟩)
            · exact absurd h (by simp)
            · simp only [Option.some.injEq] at hs
              subst hs
              exact absurd (by simp [hcol, hvo]) hc
        · simp only [setFragmentData, hc, if_false, hatt]
          constructor
          · intro h; exact absurd h (by simp)
          · rintro (h | ⟨sel', hs, hcol, hvo⟩)
            · exact absurd h (by simp)
            · simp only [Option.some.injEq] at hs
              subst hs
              exact absurd (by simp [hcol, hvo]) hc
    · intro sel hs hnc hatt
      simp only [Option.some.injEq] at hs
      subst hs
      have hc : (isCollapsed sl && (voidAbove ch (edgesOf sl).1.path).isNone) = false := by
        rcases h1 : isCollapsed sl with _ | _
        · simp
        · rcases h2 : voidAbove ch (edgesOf sl).1.path with _ | q
          · exact absurd ⟨h1, h2⟩ hnc
          · simp [h2]
      rcases hatt2 : attachOf ch sl env with _ | att
      · exact absurd hatt2 hatt
      · simp only [setFragmentData, hc, Bool.false_eq_true, if_false, hatt2]
        exact ⟨_, _, _, rfl⟩


lemma deleteFragment_not_mem_pd_writes (es : List (String × String)) :
    Effect.deleteFragment ∉
      Effect.preventDefault :: es.map fun p => Effect.setDataE p.1 p.2 := by
  simp

lemma not_mem_dropLast_of_not_mem {a : Effect} {l : List Effect} (h : a ∉ l) :
    a ∉ l.dropLast := fun hm => h ((List.dropLast_sublist l).subset hm)

/-- C6: the cut handler (not read-only, editable target, unhandled) writes
the fragment payload first and deletes only afterwards — the delete, when
present, is the last effect — and it deletes exactly when the logical
selection is expanded; a collapsed selection (including one at a void
node) is not deleted by cut. -/
theorem cutWritesThenDeletesIffExpanded (c : Ctx) (ed : SEditor)
    (env : CodecEnv) (hro : c.readOnly = false) (he : c.hasEditableTargetB = true)
    (hh : c.handled = false) (hok : setFragmentData ed env ≠ .crashed) :
    (Effect.deleteFragment ∈ onCut c ed env ↔
      ∃ sel, ed.selection = some sel ∧ isExpanded sel = true) ∧
    Effect.deleteFragment ∉ (onCut c ed env).dropLast := by
  have hg : (!c.readOnly && c.hasEditableTargetB && !c.handled) = true := by
    simp [hro, he, hh]
  rcases hr : setFragmentData ed env with _ | _ | es
  case crashed => exact absurd hr hok
  all_goals rcases hs : ed.selection with _ | sl
  case noop.none =>
    have heq : onCut c ed env = [Effect.preventDefault] := by
      simp [onCut, hg, hr, hs, writesOf]
    rw [heq]
    refine ⟨⟨fun hm => absurd hm (by simp), ?_⟩, by simp⟩
    rintro ⟨sel, hseq, _⟩
    exact Option.noConfusion hseq
  case wrote.none =>
    have heq : onCut c ed env =
        Effect.preventDefault :: es.map fun p => Effect.setDataE p.1 p.2 := by
      simp [onCut, hg, hr, hs, writesOf]
    rw [heq]
    refine ⟨⟨fun hm => absurd hm (deleteFragment_not_mem_pd_writes es), ?_⟩,
      not_mem_dropLast_of_not_mem (deleteFragment_not_mem_pd_writes es)⟩
    rintro ⟨sel, hseq, _⟩
    exact Option.noConfusion hseq
  all_goals rcases hx : isExpanded sl with _ | _
  case noop.some.false =>
    have heq : onCut c ed env = [Effect.preventDefault] := by
      simp [onCut, hg, hr, hs, hx, writesOf]
    rw [heq]
    refine ⟨⟨fun hm => absurd hm (by simp), ?_⟩, by simp⟩
    rintro ⟨sel, hseq, hexp⟩
    injection hseq with hseq
    subst hseq
    rw [hx] at hexp
    exact Bool.noConfusion hexp
  case noop.some.true =>
    have heq : onCut c ed env = [Effect.preventDefault, Effect.deleteFragment] := by
      simp [onCut, hg, hr, hs, hx, writesOf]
    rw [heq]
    exact ⟨⟨fun _ => ⟨sl, rfl, hx⟩, fun _ => by simp⟩, by simp⟩
  case wrote.some.false =>
    have heq : onCut c ed env =
        Effect.preventDefault :: es.map fun p => Effect.setDataE p.1 p.2 := by
      simp [onCut, hg, hr, hs, hx, writesOf]
    rw [heq]
    refine ⟨⟨fun hm => absurd hm (deleteFragment_not_mem_pd_writes es), ?_⟩,
      not_mem_dropLast_of_not_mem (deleteFragment_not_mem_pd_writes es)⟩
    rintro ⟨sel, hseq, hexp⟩
    injection hseq with hseq
    subst hseq
    rw [hx] at hexp
    exact Bool.noConfusion hexp
  case wrote.some.true =>
    have heq : onCut c ed env =
        (Effect.preventDefault :: es.map fun p => Effect.setDataE p.1 p.2) ++
          [Effect.deleteFragment] := by
      simp [onCut, hg, hr, hs, hx, writesOf]
    rw [heq]
    refine ⟨⟨fun _ => ⟨sl, rfl, hx⟩, fun _ => by simp⟩, ?_⟩
    rw [List.dropLast_concat]
    exact deleteFragment_not_mem_pd_writes es

theorem cutWritesThenDeletesIffExpandedWitness :
    Effect.deleteFragment ∈
      onCut ⟨false, false, true, true, true⟩
        ⟨[SNode.element false [SNode.text "ab"]],
          some ⟨⟨[0, 0], 0⟩, ⟨[0, 0], 2⟩⟩⟩
        ⟨[DNode.dtext "ab"], [], [], fun s => s⟩ :=
  (cutWritesThenDeletesIffExpanded ⟨false, false, true, true, true⟩
      ⟨[SNode.element false [SNode.text "ab"]], some ⟨⟨[0, 0], 0⟩, ⟨[0, 0], 2⟩⟩⟩
      ⟨[DNode.dtext "ab"], [], [], fun s => s⟩ rfl rfl rfl
      (by decide)).1.mpr
    ⟨⟨⟨[0, 0], 0⟩, ⟨[0, 0], 2⟩⟩, rfl, by decide⟩



lemma ne_none_of_eq_some {α : Type} {x : Option α} {a : α} (h : x = some a) :
    x ≠ none := fun h2 => Option.noConfusion (h.symm.trans h2)

theorem setFragmentDataNoopIffWitness :
    ∃ enc html plain,
      setFragmentData
          ⟨[SNode.element false [SNode.text "ab"]],
            some ⟨⟨[0, 0], 0⟩, ⟨[0, 0], 2⟩⟩⟩
          ⟨[DNode.dtext "ab"], [], [], fun s => s⟩ =
        .wrote [("application/x-slate-fragment", enc), ("text/html", html),
                ("text/plain", plain)] :=
  (setFragmentDataNoopIff
      ⟨[SNode.element false [SNode.text "ab"]], some ⟨⟨[0, 0], 0⟩, ⟨[0, 0], 2⟩⟩⟩
      ⟨[DNode.dtext "ab"], [], [], fun s => s⟩).2
    ⟨⟨[0, 0], 0⟩, ⟨[0, 0], 2⟩⟩ rfl (by decide)
    (ne_none_of_eq_some (show _ = some (DNode.dtext "ab") from rfl))

/-- The characterization the code implements: the last child whose trimmed
text content is non-empty, defaulting to the first child. -/
def lastNonEmptyChild (ns : List DNode) : Option DNode :=
  match (ns.filter fun n => trimNonEmpty (textContent n)).getLast? with
  | some n => some n
  | none => ns.head?

lemma chooseAttach_foldl_eq (ns : List DNode) :
    ∀ acc : Option DNode,
      ns.foldl (fun acc n => if trimNonEmpty (textContent n) then some n else acc)
          acc =
        match (ns.filter fun n => trimNonEmpty (textContent n)).getLast? with
        | some n => some n
        | none => acc := by
  induction ns with
  | nil => intro acc; rfl
  | cons n ns ih =>
    intro acc
    rcases hp : trimNonEmpty (textContent n) with _ | _
    · simp only [List.foldl_cons, hp, if_false, Bool.false_eq_true, List.filter_cons,
        ih]
    · simp only [List.foldl_cons, hp, if_true, List.filter_cons, ih]
      rcases hf : (ns.filter fun n => trimNonEmpty (textContent n)) with _ | ⟨m, ms⟩
      · simp
      · rcases hg : (m :: ms).getLast? with _ | x
        · simp [List.getLast?_eq_none_iff] at hg
        · simp [hg]

lemma chooseAttach_eq_lastNonEmptyChild (ns : List DNode) :
    chooseAttach ns = lastNonEmptyChild ns := by
  rw [chooseAttach, lastNonEmptyChild, chooseAttach_foldl_eq]

mutual

/-- Modelled from the claim's words: the first text descendant (preorder)
of the cloned content whose trimmed content is non-empty. -/
def specFirstNonEmptyTextN : DNode → Option DNode
  | .dtext v => if trimNonEmpty v then some (.dtext v) else none
  | .delem _ _ _ cs => specFirstNonEmptyTextL cs

/-- `specFirstNonEmptyTextN` over a list of siblings, first hit wins. -/
def specFirstNonEmptyTextL : List DNode → Option DNode
  | [] => none
  | c :: cs =>
    match specFirstNonEmptyTextN c with
    | some x => some x
    | none => specFirstNonEmptyTextL cs

end

/-- A concrete document for the attach-choice refutation. -/
def c4children : List SNode := [SNode.element false [SNode.text "ab"]]

/-- An expanded selection over `c4children` with a non-void start. -/
def c4sel : SRange := ⟨⟨[0, 0], 0⟩, ⟨[0, 0], 2⟩⟩

/-- A cloned-contents environment with two non-empty text children. -/
def c4env : CodecEnv := ⟨[DNode.dtext "a", DNode.dtext "b"], [], [], fun s => s⟩

/-- C4 fails on the code: for a selection whose start edge is not void and
a clone with two non-empty text children, the code's attach choice is the
last non-empty child, not the first non-empty-text descendant the claim
names. -/
theorem attachChoiceCounterexample :
    voidAbove c4children (edgesOf c4sel).1.path = none ∧
    attachOf c4children c4sel c4env = some (DNode.dtext "b") ∧
    specFirstNonEmptyTextL c4env.cloneContents = some (DNode.dtext "a") ∧
    attachOf c4children c4sel c4env ≠ specFirstNonEmptyTextL c4env.cloneContents := by
  refine ⟨rfl, rfl, rfl, ?_⟩
  intro h
  rw [show attachOf c4children c4sel c4env = some (DNode.dtext "b") from rfl,
    show specFirstNonEmptyTextL c4env.cloneContents = some (DNode.dtext "a") from
      rfl] at h
  injection h with h
  injection h with h
  exact absurd h (by decide)

/-- C4 amended: for a selection whose start edge is not void, the node
chosen to carry the encoded fragment attribute is the last child of the
cloned content whose text content is non-empty (defaulting to the first
child); when the start edge is void it is the first spacer element of the
current contents (re-cloned when the end edge is void). -/
theorem attachChoiceAmended (children : List SNode) (sel : SRange)
    (env : CodecEnv) :
    (voidAbove children (edgesOf sel).1.path = none →
      attachOf children sel env = lastNonEmptyChild env.cloneContents) ∧
    (voidAbove children (edgesOf sel).1.path ≠ none →
      attachOf children sel env =
        findSpacerL
          (if (voidAbove children (edgesOf sel).2.path).isSome then
            env.extendedContents
          else env.cloneContents)) := by
  constructor
  · intro h
    simp [attachOf, h, chooseAttach_eq_lastNonEmptyChild]
  · intro h
    obtain ⟨q, hq⟩ := Option.ne_none_iff_exists'.mp h
    simp [attachOf, hq]

theorem attachChoiceAmendedWitness :
    attachOf c4children c4sel c4env = lastNonEmptyChild c4env.cloneContents :=
  (attachChoiceAmended c4children c4sel c4env).1 rfl



/-- A read-only context with an unhandled event and valid targets. -/
def roCtx : Ctx := ⟨true, false, true, true, true⟩

/-- A document whose only top-level node is a void element. -/
def c5children : List SNode := [SNode.element true [SNode.text ""]]

/-- An empty rendered-clone environment. -/
def c5env : CodecEnv := ⟨[], [], [], fun s => s⟩

/-- C5 fails on the code: the drag-start handler does not consult the
read-only flag, and on a target inside a void node it issues a model
select — a model-affecting action — while the editor is read-only. -/
theorem readOnlyGatingCounterexample :
    roCtx.readOnly = true ∧
    Effect.select ⟨⟨[0, 0], 0⟩, ⟨[0, 0], 0⟩⟩ ∈
      (onDragStart roCtx ⟨c5children, none⟩ c5env [0, 0]).1 ∧
    (onDragStart roCtx ⟨c5children, none⟩ c5env [0, 0]).2.selection =
      some ⟨⟨[0, 0], 0⟩, ⟨[0, 0], 0⟩⟩ := by
  refine ⟨rfl, ?_, rfl⟩
  rw [show (onDragStart roCtx ⟨c5children, none⟩ c5env [0, 0]).1 =
      [Effect.select ⟨⟨[0, 0], 0⟩, ⟨[0, 0], 0⟩⟩] from rfl]
  exact List.mem_singleton.mpr rfl

/-- C5 amended: the click, cut, focus, blur and inbound selection-change
handlers check not-read-only before any model-affecting action, but the
copy, drag-over and drag-start handlers do not consult the read-only flag
at all — in particular drag-start issues a model select on void targets
even when the editor is read-only. -/
theorem readOnlyGatingAmended (c : Ctx) (ed : SEditor) (env : CodecEnv)
    (children : List SNode) (sel : Option SRange) (p : List Nat) (fl : Flags)
    (isFirefox : Bool) (activeElement : Option Nat) (targetIsRoot : Bool)
    (rt1 rt2 rt3 rt4 : Bool) (editorEl : Nat) (domRange : Option DRange)
    (editableOk : DRange → Bool) (toSlate : DRange → SRange)
    (hro : c.readOnly = true) :
    onClick c children sel p = sel ∧
    onCut c ed env = [] ∧
    onFocus c fl isFirefox activeElement targetIsRoot = (fl, []) ∧
    onBlur c fl activeElement rt1 rt2 rt3 rt4 = fl ∧
    onDOMSelectionChange c.readOnly activeElement editorEl domRange editableOk
        toSlate fl = (fl, []) ∧
    onCopy c ed env = onCopy { c with readOnly := false } ed env ∧
    onDragOver c children p = onDragOver { c with readOnly := false } children p ∧
    onDragStart c ed env p = onDragStart { c with readOnly := false } ed env p := by
  refine ⟨?_, ?_, ?_, ?_, ?_, rfl, rfl, rfl⟩
  · simp [onClick, hro]
  · simp [onCut, hro]
  · simp [onFocus, hro]
  · simp [onBlur, hro]
  · simp [onDOMSelectionChange, hro]

theorem readOnlyGatingAmendedWitness :
    onCut roCtx ⟨c5children, none⟩ c5env = [] ∧
    onClick roCtx c5children none [0] = none :=
  ⟨(readOnlyGatingAmended roCtx ⟨c5children, none⟩ c5env c5children none [0]
      ⟨false, false, none, false⟩ false none false false false false false 0 none
      (fun _ => true) (fun _ => ⟨⟨[], 0⟩, ⟨[], 0⟩⟩) rfl).2.1,
    (readOnlyGatingAmended roCtx ⟨c5children, none⟩ c5env c5children none [0]
      ⟨false, false, none, false⟩ false none false false false false false 0 none
      (fun _ => true) (fun _ => ⟨⟨[], 0⟩, ⟨[], 0⟩⟩) rfl).1⟩



lemma nodeAtL_eq (cs : List SNode) (i : Nat) (rest : List Nat) :
    nodeAtL cs i rest = (cs.get? i).bind fun c => nodeAtN c rest := by
  induction cs generalizing i with
  | nil => cases i <;> rfl
  | cons c cs ih =>
    cases i with
    | zero => simp [nodeAtL]
    | succ j => simpa [nodeAtL] using ih j

lemma nodeAtN_append (q r : List Nat) :
    ∀ n : SNode, nodeAtN n (q ++ r) = (nodeAtN n q).bind fun m => nodeAtN m r := by
  induction q with
  | nil => intro n; simp [nodeAtN]
  | cons j q ih =>
    intro n
    cases n with
    | text s => simp [nodeAtN]
    | element v cs =>
      simp only [List.cons_append, nodeAtN, nodeAtL_eq]
      rcases cs.get? j with _ | c
      · rfl
      · simpa using ih c

lemma voidOkL_get : ∀ (cs : List SNode) (i : Nat) (c : SNode),
    voidOkL cs = true → cs.get? i = some c → voidOk c = true := by
  intro cs
  induction cs with
  | nil => intro i c _ hg; simp at hg
  | cons x xs ih =>
    intro i c h hg
    rw [voidOkL, Bool.and_eq_true] at h
    cases i with
    | zero => simp at hg; subst hg; exact h.1
    | succ j => exact ih j c h.2 hg

lemma voidOk_nodeAtN (p : List Nat) :
    ∀ n m : SNode, voidOk n = true → nodeAtN n p = some m → voidOk m = true := by
  induction p with
  | nil =>
    intro n m h hg
    rw [nodeAtN] at hg
    injection hg with hg
    exact hg ▸ h
  | cons i rest ih =>
    intro n m h hg
    cases n with
    | text s => rw [nodeAtN] at hg; exact Option.noConfusion hg
    | element v cs =>
      rw [nodeAtN, nodeAtL_eq] at hg
      rcases hc : cs.get? i with _ | c
      · rw [hc] at hg; exact Option.noConfusion hg
      · rw [hc, Option.some_bind] at hg
        rw [voidOk, Bool.and_eq_true] at h
        exact ih c m (voidOkL_get cs i c h.2 hc) hg

lemma voidOk_nodeAt (children : List SNode) (p : List Nat) (m : SNode)
    (h : voidOkL children = true) (hg : nodeAt children p = some m) :
    voidOk m = true := by
  cases p with
  | nil => exact Option.noConfusion hg
  | cons i rest =>
    rw [nodeAt, nodeAtL_eq] at hg
    rcases hc : children.get? i with _ | c
    · rw [hc] at hg; exact Option.noConfusion hg
    · rw [hc, Option.some_bind] at hg
      exact voidOk_nodeAtN rest c m (voidOkL_get children i c h hc) hg

lemma singletonEmptyText_eq (cs : List SNode)
    (h : singletonEmptyText cs = true) : cs = [SNode.text ""] := by
  match cs, h with
  | [SNode.text s], h => simp [singletonEmptyText] at h; rw [h]

lemma isVoidAt_elim (children : List SNode) (q : List Nat)
    (h : isVoidAt children q = true) :
    ∃ cs, nodeAt children q = some (.element true cs) := by
  rw [isVoidAt] at h
  rcases hn : nodeAt children q with _ | n
  · rw [hn] at h; exact Bool.noConfusion h
  · cases n with
    | text s => rw [hn] at h; exact Bool.noConfusion h
    | element v cs =>
      cases v with
      | false => rw [hn] at h; exact Bool.noConfusion h
      | true => exact ⟨cs, rfl⟩

lemma find?_isSome_of_mem {α : Type} (l : List α) (pr : α → Bool) (a : α)
    (ha : a ∈ l) (hp : pr a = true) : (l.find? pr).isSome = true := by
  induction l with
  | nil => simp at ha
  | cons x xs ih =>
    rcases hx : pr x with _ | _
    · rw [List.find?_cons, hx]
      rcases List.mem_cons.mp ha with h | h
      · subst h; rw [hx] at hp; exact Bool.noConfusion hp
      · exact ih h
    · rw [List.find?_cons, hx]; rfl

lemma take_append_self {α : Type} (l r : List α) : (l ++ r).take l.length = l := by
  induction l with
  | nil => rfl
  | cons x xs ih => simp [List.take, ih]

/-- C2: for a void node `V` in a normalized document, a click whose target
resolves inside `V`'s rendered content (to `V` itself or its sole text
leaf), when not read-only, in the editor and unhandled, sets the logical
selection to exactly the collapsed range at `V`'s own start point — never
to a position determined by the clicked descendant. -/
theorem clickInsideVoidSelectsVoidPoint (c : Ctx) (children : List SNode)
    (sel : Option SRange) (vp p : List Nat)
    (hwf : voidOkL children = true)
    (hv : isVoidAt children vp = true)
    (hp : p = vp ∨ p = vp ++ [0])
    (hro : c.readOnly = false) (ht : c.hasTargetB = true)
    (hh : c.handled = false) (hn : c.isDomNodeB = true) :
    ∃ s, editorStart children vp = some s ∧
      onClick c children sel p = some ⟨s, s⟩ := by
  obtain ⟨cs, hnode⟩ := isVoidAt_elim children vp hv
  have hok := voidOk_nodeAt children vp _ hwf hnode
  simp only [voidOk, Bool.and_eq_true, if_true] at hok
  have hcs := singletonEmptyText_eq cs hok.1
  subst hcs
  cases vp with
  | nil => exact Option.noConfusion hnode
  | cons i rest =>
    have hstart_vp : editorStart children (i :: rest) =
        some ⟨(i :: rest) ++ [0], 0⟩ := by
      show (nodeAt children (i :: rest)).bind
          (fun n => startOfNode n (i :: rest)) = _
      rw [hnode, Option.some_bind]
      simp [startOfNode]
    have hvoidsome :
        (voidAbove children ((i :: rest) ++ [0])).isSome = true := by
      apply find?_isSome_of_mem _ _ (i :: rest) _ hv
      apply List.mem_map.mpr
      refine ⟨rest.length, List.mem_range.mpr (by simp), ?_⟩
      rw [show rest.length + 1 = (i :: rest).length from rfl, take_append_self]
    have hguard : (!c.readOnly && c.hasTargetB && !c.handled && c.isDomNodeB)
        = true := by simp [hro, ht, hh, hn]
    obtain ⟨q, hq⟩ := Option.isSome_iff_exists.mp hvoidsome
    have hq2 : voidAbove children (i :: (rest ++ [0])) = some q := hq
    have hstart_vp2 : editorStart children (i :: rest) =
        some ⟨i :: (rest ++ [0]), 0⟩ := hstart_vp
    refine ⟨⟨(i :: rest) ++ [0], 0⟩, hstart_vp, ?_⟩
    rcases hp with hpv | hpv <;> subst hpv
    · simp [onClick, hguard, hstart_vp2, hq2]
    · have hnodep : nodeAt children (i :: (rest ++ [0])) =
          some (SNode.text "") := by
        rw [nodeAt, nodeAtL_eq]
        rw [nodeAt, nodeAtL_eq] at hnode
        rcases hc : children.get? i with _ | ch
        · rw [hc] at hnode; exact Option.noConfusion hnode
        · rw [hc, Option.some_bind] at hnode
          rw [Option.some_bind, nodeAtN_append, hnode, Option.some_bind]
          rfl
      have hstart_p : editorStart children (i :: (rest ++ [0])) =
          some ⟨i :: (rest ++ [0]), 0⟩ := by
        show (nodeAt children (i :: (rest ++ [0]))).bind
            (fun n => startOfNode n (i :: (rest ++ [0]))) = _
        rw [hnodep, Option.some_bind]
        simp [startOfNode]
      simp [onClick, hguard, hstart_p, hq2]

theorem clickInsideVoidSelectsVoidPointWitness :
    onClick ⟨false, false, true, true, true⟩
        [SNode.element true [SNode.text ""]] none [0, 0] =
      some ⟨⟨[0, 0], 0⟩, ⟨[0, 0], 0⟩⟩ := by
  obtain ⟨s, hs, hclick⟩ :=
    clickInsideVoidSelectsVoidPoint ⟨false, false, true, true, true⟩
      [SNode.element true [SNode.text ""]] none [0] [0, 0]
      (by decide) (by decide) (Or.inr rfl) rfl rfl rfl rfl
  have hs2 : s = ⟨[0, 0], 0⟩ := by
    rw [show editorStart [SNode.element true [SNode.text ""]] [0] =
        some ⟨[0, 0], 0⟩ from rfl] at hs
    injection hs with hs
    exact hs.symm
  rw [hclick, hs2]



theorem wfNode_texts : ∀ n : SNode, wfNode n = true → 1 ≤ textsN n
  | .text _, _ => le_refl 1
  | .element v [], h => by simp [wfNode] at h
  | .element v (c :: cs), h => by
    rw [wfNode, Bool.and_eq_true] at h
    have h2 := h.2
    rw [wfList, Bool.and_eq_true] at h2
    have := wfNode_texts c h2.1
    rw [textsN, textsL]
    omega

theorem wf_startOfNode : ∀ (n : SNode) (p : List Nat), wfNode n = true →
    ∃ pt, startOfNode n p = some pt
  | .text _, p, _ => ⟨⟨p, 0⟩, rfl⟩
  | .element v [], _, h => by simp [wfNode] at h
  | .element v (c :: cs), p, h => by
    rw [wfNode, Bool.and_eq_true] at h
    have h2 := h.2
    rw [wfList, Bool.and_eq_true] at h2
    obtain ⟨pt, hpt⟩ := wf_startOfNode c (p ++ [0]) h2.1
    exact ⟨pt, by rw [startOfNode]; exact hpt⟩

lemma wfList_length_one (children : List SNode) (hwf : wfList children = true)
    (h1 : textsL children = 1) : ∃ c, children = [c] := by
  rcases children with _ | ⟨c1, cs⟩
  · simp [textsL] at h1
  · rcases cs with _ | ⟨c2, cs2⟩
    · exact ⟨c1, rfl⟩
    · rw [wfList, Bool.and_eq_true] at hwf
      have hwf2 := hwf.2
      rw [wfList, Bool.and_eq_true] at hwf2
      have t1 := wfNode_texts c1 hwf.1
      have t2 := wfNode_texts c2 hwf2.1
      rw [textsL, textsL] at h1
      omega

lemma filter_placeholder_nil (base : List Decoration)
    (hbase : ∀ d ∈ base, d.isPlaceholder = false) :
    base.filter (fun d => d.isPlaceholder) = [] := by
  induction base with
  | nil => rfl
  | cons d ds ih =>
    rw [List.filter_cons, hbase d (List.mem_cons_self d ds)]
    exact ih fun x hx => hbase x (List.mem_cons_of_mem d hx)

/-- C8: the decoration output carries exactly one placeholder decoration,
collapsed at the document start with the placeholder marker attached, if
and only if a placeholder string is configured and the (normalized)
document consists of exactly one empty text leaf; otherwise none is
produced. -/
theorem placeholderDecorationIff (ph : Option String) (children : List SNode)
    (base : List Decoration)
    (hwf : wfList children = true)
    (hbase : ∀ d ∈ base, d.isPlaceholder = false) :
    ((∃ p, ph = some p ∧ p ≠ "") → textsL children = 1 → stringL children = "" →
      ∃ s, editorStart children [] = some s ∧
        (decorationsOf ph children base).filter (fun d => d.isPlaceholder) =
          [⟨s, s, true, ph⟩]) ∧
    (¬((∃ p, ph = some p ∧ p ≠ "") ∧ textsL children = 1 ∧
        stringL children = "") →
      (decorationsOf ph children base).filter (fun d => d.isPlaceholder) = []) := by
  constructor
  · rintro ⟨p, hphp, hpne⟩ h1 hstr
    subst hphp
    obtain ⟨c, hch⟩ := wfList_length_one children hwf h1
    have hwfc : wfNode c = true := by
      rw [hch, wfList, Bool.and_eq_true] at hwf
      exact hwf.1
    obtain ⟨pt, hpt⟩ := wf_startOfNode c [0] hwfc
    have hstart : editorStart children [] = some pt := by
      rw [hch]
      exact hpt
    have hlen : children.length = 1 := by rw [hch]; rfl
    have hcond : (p != "" && children.length == 1 && textsL children == 1 &&
        stringL children == "") = true := by
      simp [hpne, hlen, h1, hstr]
    refine ⟨pt, hstart, ?_⟩
    simp [decorationsOf, hcond, hstart, List.filter_append,
      filter_placeholder_nil base hbase]
  · intro hnc
    rcases ph with _ | p
    · simp only [decorationsOf]
      exact filter_placeholder_nil base hbase
    · by_cases hcond : (p != "" && children.length == 1 && textsL children == 1 &&
          stringL children == "") = true
      · exfalso
        apply hnc
        simp only [Bool.and_eq_true, bne_iff_ne, beq_iff_eq] at hcond
        exact ⟨⟨p, rfl, hcond.1.1.1⟩, hcond.1.2, hcond.2⟩
      · have heq : decorationsOf (some p) children base = base := by
          simp only [decorationsOf, Bool.not_eq_true] at hcond ⊢
          rw [hcond]
          rfl
        rw [heq]
        exact filter_placeholder_nil base hbase

theorem placeholderDecorationIffWitness :
    ∃ s, editorStart [SNode.element false [SNode.text ""]] [] = some s ∧
      (decorationsOf (some "Type here") [SNode.element false [SNode.text ""]]
          []).filter (fun d => d.isPlaceholder) =
        [⟨s, s, true, some "Type here"⟩] :=
  (placeholderDecorationIff (some "Type here")
      [SNode.element false [SNode.text ""]] [] (by decide)
      (fun d hd => absurd hd (List.not_mem_nil d))).1
    ⟨"Type here", rfl, by decide⟩ (by decide) rfl

end Slate
